import Mathlib

/-!
# Verification of the Markdown → ADF converter (`src/lib/jira.ts`)

Shallow embedding of `markdownToADF` and `parseInlineFormatting` from
`src/lib/jira.ts`, together with proofs of the specified properties.

Strings are processed as `List Char`; `String` values appear at node
boundaries (span texts, heading texts, code-block bodies), mirroring the
JavaScript source.  Recursion that consumes arbitrary suffixes is phrased
with an explicit fuel parameter equal to the input length plus one, so that
every definition is structurally recursive and computable by `decide`;
fuel-irrelevance lemmas recover the step equations of the source loops.
-/

namespace BoardHelper

/-- Inline formatting marks, mirroring ADF mark objects
`{type:'strong'}`, `{type:'em'}`, `{type:'code'}`. -/
inductive Mark where
  | strong
  | em
  | code
deriving DecidableEq, Repr

/-- An ADF text node `{type:'text', text, marks?}`; an absent `marks`
field in the source is the empty list here. -/
structure TextSpan where
  text : String
  marks : List Mark
deriving DecidableEq, Repr

/-- ADF block nodes produced by `markdownToADF`.  The fixed wrapper shapes
of the source (a `listItem` always wraps exactly one `paragraph`; a
`heading` or `codeBlock` always wraps exactly one plain text node) are
collapsed into the constructor arguments. -/
inductive Block where
  | paragraph (content : List TextSpan)
  | heading (level : Nat) (text : String)
  | bulletList (items : List (List TextSpan))
  | orderedList (items : List (List TextSpan))
  | codeBlock (language : String) (text : String)
deriving DecidableEq, Repr

/-- The ADF document root `{type:'doc', version:1, content}`. -/
structure Doc where
  version : Nat
  content : List Block
deriving DecidableEq, Repr

/-! ## Character-level helpers -/

/-- Whitespace as trimmed by `String.prototype.trim` (restricted to the
ASCII whitespace that can occur inside a line of the inputs modelled). -/
def isWs (c : Char) : Bool := c = ' ' || c = '\t' || c = '\r' || c = '\n'

/-- JavaScript `s.trim()`: strip leading and trailing whitespace. -/
def trimChars (cs : List Char) : List Char :=
  ((cs.dropWhile isWs).reverse.dropWhile isWs).reverse

/-- JavaScript `markdown.split('\n')`: `""` splits to `[""]`. -/
def splitLines : List Char → List (List Char)
  | [] => [[]]
  | c :: rest =>
    if c = '\n' then [] :: splitLines rest
    else
      match splitLines rest with
      | [] => [[c]]
      | l :: ls => (c :: l) :: ls

/-- JavaScript `s.includes(pat)`: substring test. -/
def hasInfix (pat : List Char) : List Char → Bool
  | [] => pat.isEmpty
  | c :: rest => pat.isPrefixOf (c :: rest) || hasInfix pat rest

/-- JavaScript `line.replace(/\*\* /g, '')` (without the space): delete
every non-overlapping occurrence of `**`, scanning left to right. -/
def removeBold : List Char → List Char
  | '*' :: '*' :: rest => removeBold rest
  | c :: rest => c :: removeBold rest
  | [] => []

/-- JavaScript `codeLines.join('\n')`. -/
def joinNl : List (List Char) → List Char
  | [] => []
  | [l] => l
  | l :: ls => l ++ '\n' :: joinNl ls

/-! ## Inline pattern matchers (`parseInlineFormatting`, lines 140–173)

Each matcher mirrors one anchored regex of the source; on success it
returns the captured inner text and the unconsumed remainder. -/

/-- `remaining.match(/^`([^`]+)`/)`. -/
def matchCode (cs : List Char) : Option (List Char × List Char) :=
  match cs with
  | [] => none
  | c :: rest =>
    if c = '`' then
      let inner := rest.takeWhile (fun x => x ≠ '`')
      match rest.dropWhile (fun x => x ≠ '`') with
      | d :: rest2 => if d = '`' && !inner.isEmpty then some (inner, rest2) else none
      | [] => none
    else none

/-- `remaining.match(/^\*\*([^*]+)\*\*/)`. -/
def matchBold (cs : List Char) : Option (List Char × List Char) :=
  match cs with
  | a :: b :: rest =>
    if a = '*' && b = '*' then
      let inner := rest.takeWhile (fun x => x ≠ '*')
      match rest.dropWhile (fun x => x ≠ '*') with
      | d :: e :: rest2 =>
        if d = '*' && e = '*' && !inner.isEmpty then some (inner, rest2) else none
      | _ => none
    else none
  | _ => none

/-- `remaining.match(/^\*([^*]+)\*/)`. -/
def matchItalic (cs : List Char) : Option (List Char × List Char) :=
  match cs with
  | [] => none
  | a :: rest =>
    if a = '*' then
      let inner := rest.takeWhile (fun x => x ≠ '*')
      match rest.dropWhile (fun x => x ≠ '*') with
      | d :: rest2 => if d = '*' && !inner.isEmpty then some (inner, rest2) else none
      | [] => none
    else none

/-- The character class `[`*]` of `remaining.search(/[`*]/)`. -/
def specialChar (c : Char) : Bool := c = '`' || c = '*'

/-! ## The inline formatter's scan loop -/

/-- The `while (remaining.length > 0)` loop of `parseInlineFormatting`
(lines 138–192), with explicit fuel; each iteration consumes at least one
character, so fuel `cs.length + 1` is always sufficient
(`parseInlineGo_fuel`). -/
def parseInlineGo : Nat → List Char → List TextSpan
  | 0, _ => []
  | _ + 1, [] => []
  | fuel + 1, c :: rest =>
    match matchCode (c :: rest) with
    | some p => ⟨String.mk p.1, [Mark.code]⟩ :: parseInlineGo fuel p.2
    | none =>
      match matchBold (c :: rest) with
      | some p => ⟨String.mk p.1, [Mark.strong]⟩ :: parseInlineGo fuel p.2
      | none =>
        match matchItalic (c :: rest) with
        | some p => ⟨String.mk p.1, [Mark.em]⟩ :: parseInlineGo fuel p.2
        | none =>
          if specialChar c then
            ⟨String.mk [c], []⟩ :: parseInlineGo fuel rest
          else
            ⟨String.mk ((c :: rest).takeWhile (fun x => !specialChar x)), []⟩ ::
              parseInlineGo fuel ((c :: rest).dropWhile (fun x => !specialChar x))

/-- The scan loop at its canonical fuel. -/
def parseInlineAux (cs : List Char) : List TextSpan :=
  parseInlineGo (cs.length + 1) cs

/-- `parseInlineFormatting` (lines 134–195): run the scan loop, then the
final `result.length > 0 ? result : [{type:'text', text:''}]`. -/
def parseInlineFormatting (text : String) : List TextSpan :=
  let result := parseInlineAux text.toList
  if result.isEmpty then [⟨"", []⟩] else result

/-! ## Line classifiers of the block segmenter (`markdownToADF`) -/

/-- `line.trim().startsWith('```')` (line 45). -/
def isFence (line : List Char) : Bool :=
  ['`', '`', '`'].isPrefixOf (trimChars line)

/-- The heading heuristic
`line.startsWith('**') && line.endsWith('**') && !line.includes(':**')`
(line 63); note it inspects the raw, untrimmed line. -/
def isHeadingLine (line : List Char) : Bool :=
  ['*', '*'].isPrefixOf line && ['*', '*'].isSuffixOf line &&
    !hasInfix [':', '*', '*'] line

/-- The heading text `line.replace(/\*\*/g, '').trim()` (line 68). -/
def headingText (line : List Char) : List Char :=
  trimChars (removeBold line)

/-- `line.trim().startsWith('* ') || line.trim().startsWith('- ')`
(lines 75, 77). -/
def isBulletLine (line : List Char) : Bool :=
  ['*', ' '].isPrefixOf (trimChars line) || ['-', ' '].isPrefixOf (trimChars line)

/-- `/^\d+\.\s/.test(line.trim())` (lines 96, 98). -/
def isOrderedLine (line : List Char) : Bool :=
  let t := trimChars line
  match t.dropWhile Char.isDigit with
  | '.' :: c :: _ => !(t.takeWhile Char.isDigit).isEmpty && isWs c
  | _ => false

/-- `line.trim().replace(/^\d+\.\s+/, '')` (line 99). -/
def stripOrdered (line : List Char) : List Char :=
  let t := trimChars line
  match t.dropWhile Char.isDigit with
  | '.' :: c :: rest =>
    if !(t.takeWhile Char.isDigit).isEmpty && isWs c then
      (c :: rest).dropWhile isWs
    else t
  | _ => t

/-! ## The block segmenter's cursor loop -/

/-- The `while (i < lines.length)` loop of `markdownToADF` (lines 35–122),
with explicit fuel; each pass consumes at least the current line, so fuel
`lines.length + 1` is always sufficient (`processGo_fuel`).  Branches in
source order: blank skip, fenced code, heading heuristic, bullet list,
ordered list, default paragraph. -/
def processGo : Nat → List (List Char) → List Block
  | 0, _ => []
  | _ + 1, [] => []
  | fuel + 1, line :: rest =>
    if (trimChars line).isEmpty then processGo fuel rest
    else if isFence line then
      let lang := (trimChars line).drop 3
      let language := if lang.isEmpty then "plaintext" else String.mk lang
      Block.codeBlock language
          (String.mk (joinNl (rest.takeWhile (fun l => !isFence l)))) ::
        processGo fuel ((rest.dropWhile (fun l => !isFence l)).drop 1)
    else if isHeadingLine line then
      Block.heading 3 (String.mk (headingText line)) :: processGo fuel rest
    else if isBulletLine line then
      Block.bulletList
          ((line :: rest.takeWhile isBulletLine).map
            (fun l => parseInlineFormatting (String.mk ((trimChars l).drop 2)))) ::
        processGo fuel (rest.dropWhile isBulletLine)
    else if isOrderedLine line then
      Block.orderedList
          ((line :: rest.takeWhile isOrderedLine).map
            (fun l => parseInlineFormatting (String.mk (stripOrdered l)))) ::
        processGo fuel (rest.dropWhile isOrderedLine)
    else
      Block.paragraph (parseInlineFormatting (String.mk line)) :: processGo fuel rest

/-- The cursor loop at its canonical fuel. -/
def processLines (lines : List (List Char)) : List Block :=
  processGo (lines.length + 1) lines

/-- `markdownToADF` (lines 30–129): split on newlines, run the cursor
loop, and apply the final empty-content fallback
`content.length > 0 ? content : [{type:'paragraph', content:[{type:'text', text:''}]}]`. -/
def markdownToADF (markdown : String) : Doc :=
  let content := processLines (splitLines markdown.toList)
  ⟨1, if content.isEmpty then [Block.paragraph [⟨"", []⟩]] else content⟩

/-! ## Basic lemmas about the helpers -/

theorem isPrefixOf_spec {l₁ l₂ : List Char} :
    l₁.isPrefixOf l₂ = true ↔ ∃ t, l₂ = l₁ ++ t := by
  induction l₁ generalizing l₂ with
  | nil => simp [List.isPrefixOf]
  | cons a as ih =>
    cases l₂ with
    | nil => simp [List.isPrefixOf]
    | cons b bs =>
      simp only [List.isPrefixOf, Bool.and_eq_true, beq_iff_eq, ih, List.cons_append,
        List.cons.injEq]
      constructor
      · rintro ⟨rfl, t, rfl⟩; exact ⟨t, rfl, rfl⟩
      · rintro ⟨t, rfl, rfl⟩; exact ⟨rfl, t, rfl⟩

theorem mk_append (a b : List Char) :
    String.mk a ++ String.mk b = String.mk (a ++ b) := rfl

theorem mk_data (s : String) : String.mk s.data = s := rfl

/-! ## Shape lemmas for the inline matchers -/

theorem matchCode_spec {cs inner rest : List Char}
    (h : matchCode cs = some (inner, rest)) :
    cs = '`' :: (inner ++ '`' :: rest) ∧ inner ≠ [] := by
  cases cs with
  | nil => simp [matchCode] at h
  | cons c cs' =>
    simp only [matchCode] at h
    split at h
    case isTrue hc =>
      split at h
      case h_1 d rest2 heq =>
        split at h
        case isTrue hcond =>
          simp only [Option.some.injEq, Prod.mk.injEq] at h
          obtain ⟨rfl, rfl⟩ := h
          simp only [Bool.and_eq_true, decide_eq_true_eq, Bool.not_eq_true',
            List.isEmpty_eq_false] at hcond
          obtain ⟨rfl, hne⟩ := hcond
          have hsplit := List.takeWhile_append_dropWhile (fun x => x ≠ '`') cs'
          rw [heq] at hsplit
          subst hc
          exact ⟨congrArg (List.cons '`') hsplit.symm, hne⟩
        case isFalse => exact absurd h (by simp)
      case h_2 => exact absurd h (by simp)
    case isFalse => exact absurd h (by simp)

theorem matchBold_spec {cs inner rest : List Char}
    (h : matchBold cs = some (inner, rest)) :
    cs = '*' :: '*' :: (inner ++ '*' :: '*' :: rest) ∧ inner ≠ [] := by
  cases cs with
  | nil => simp [matchBold] at h
  | cons a cs₁ =>
    cases cs₁ with
    | nil => simp [matchBold] at h
    | cons b cs' =>
      simp only [matchBold] at h
      split at h
      case isTrue hab =>
        split at h
        case h_1 d e rest2 heq =>
          split at h
          case isTrue hcond =>
            simp only [Option.some.injEq, Prod.mk.injEq] at h
            obtain ⟨rfl, rfl⟩ := h
            simp only [Bool.and_eq_true, decide_eq_true_eq, Bool.not_eq_true',
              List.isEmpty_eq_false] at hcond
            obtain ⟨⟨rfl, rfl⟩, hne⟩ := hcond
            simp only [Bool.and_eq_true, decide_eq_true_eq] at hab
            obtain ⟨rfl, rfl⟩ := hab
            have hsplit := List.takeWhile_append_dropWhile (fun x => x ≠ '*') cs'
            rw [heq] at hsplit
            exact ⟨congrArg (fun l => '*' :: '*' :: l) hsplit.symm, hne⟩
          case isFalse => exact absurd h (by simp)
        case h_2 => exact absurd h (by simp)
      case isFalse => exact absurd h (by simp)

theorem matchItalic_spec {cs inner rest : List Char}
    (h : matchItalic cs = some (inner, rest)) :
    cs = '*' :: (inner ++ '*' :: rest) ∧ inner ≠ [] := by
  cases cs with
  | nil => simp [matchItalic] at h
  | cons c cs' =>
    simp only [matchItalic] at h
    split at h
    case isTrue hc =>
      split at h
      case h_1 d rest2 heq =>
        split at h
        case isTrue hcond =>
          simp only [Option.some.injEq, Prod.mk.injEq] at h
          obtain ⟨rfl, rfl⟩ := h
          simp only [Bool.and_eq_true, decide_eq_true_eq, Bool.not_eq_true',
            List.isEmpty_eq_false] at hcond
          obtain ⟨rfl, hne⟩ := hcond
          have hsplit := List.takeWhile_append_dropWhile (fun x => x ≠ '*') cs'
          rw [heq] at hsplit
          subst hc
          exact ⟨congrArg (List.cons '*') hsplit.symm, hne⟩
        case isFalse => exact absurd h (by simp)
      case h_2 => exact absurd h (by simp)
    case isFalse => exact absurd h (by simp)

theorem matchCode_length {cs inner rest : List Char}
    (h : matchCode cs = some (inner, rest)) : rest.length < cs.length := by
  obtain ⟨rfl, -⟩ := matchCode_spec h
  simp; omega

theorem matchBold_length {cs inner rest : List Char}
    (h : matchBold cs = some (inner, rest)) : rest.length < cs.length := by
  obtain ⟨rfl, -⟩ := matchBold_spec h
  simp; omega

theorem matchItalic_length {cs inner rest : List Char}
    (h : matchItalic cs = some (inner, rest)) : rest.length < cs.length := by
  obtain ⟨rfl, -⟩ := matchItalic_spec h
  simp; omega

/-! ## Fuel irrelevance and step equations for the inline scanner -/

theorem parseInlineGo_fuel :
    ∀ (f₁ : Nat) (f₂ : Nat) (cs : List Char), cs.length < f₁ → cs.length < f₂ →
    parseInlineGo f₁ cs = parseInlineGo f₂ cs := by
  intro f₁
  induction f₁ with
  | zero => intro f₂ cs h1 _; omega
  | succ f ih =>
    intro f₂ cs h1 h2
    cases f₂ with
    | zero => omega
    | succ f₂ =>
      cases cs with
      | nil => rfl
      | cons c rest =>
        have hlen : rest.length + 1 < f + 1 := by simpa using h1
        have hlen2 : rest.length + 1 < f₂ + 1 := by simpa using h2
        cases hm : matchCode (c :: rest) with
        | some p =>
          obtain ⟨inner, r⟩ := p
          have hr := matchCode_length hm
          simp only [List.length_cons] at hr
          simp only [parseInlineGo, hm]
          rw [ih f₂ r (by omega) (by omega)]
        | none =>
          cases hb : matchBold (c :: rest) with
          | some p =>
            obtain ⟨inner, r⟩ := p
            have hr := matchBold_length hb
            simp only [List.length_cons] at hr
            simp only [parseInlineGo, hm, hb]
            rw [ih f₂ r (by omega) (by omega)]
          | none =>
            cases hi : matchItalic (c :: rest) with
            | some p =>
              obtain ⟨inner, r⟩ := p
              have hr := matchItalic_length hi
              simp only [List.length_cons] at hr
              simp only [parseInlineGo, hm, hb, hi]
              rw [ih f₂ r (by omega) (by omega)]
            | none =>
              simp only [parseInlineGo, hm, hb, hi]
              by_cases hs : specialChar c = true
              · simp only [hs, if_true]
                rw [ih f₂ rest (by omega) (by omega)]
              · simp only [hs, if_false, Bool.false_eq_true]
                have hdw : (c :: rest).dropWhile (fun x => !specialChar x) =
                    rest.dropWhile (fun x => !specialChar x) := by
                  rw [List.dropWhile_cons_of_pos]
                  simp [Bool.eq_false_iff.mpr hs]
                have hle : (rest.dropWhile (fun x => !specialChar x)).length ≤ rest.length :=
                  (List.dropWhile_sublist _).length_le
                rw [hdw, ih f₂ _ (by omega) (by omega)]

theorem parseInlineAux_code {cs inner r : List Char}
    (h : matchCode cs = some (inner, r)) :
    parseInlineAux cs = ⟨String.mk inner, [Mark.code]⟩ :: parseInlineAux r := by
  obtain ⟨hcs, -⟩ := matchCode_spec h
  subst hcs
  simp only [parseInlineAux, List.length_cons, parseInlineGo, h]
  rw [parseInlineGo_fuel _ (r.length + 1) r (by simp; omega) (by omega)]

theorem parseInlineAux_bold {cs inner r : List Char}
    (hc : matchCode cs = none) (h : matchBold cs = some (inner, r)) :
    parseInlineAux cs = ⟨String.mk inner, [Mark.strong]⟩ :: parseInlineAux r := by
  obtain ⟨hcs, -⟩ := matchBold_spec h
  subst hcs
  simp only [parseInlineAux, List.length_cons, parseInlineGo, hc, h]
  rw [parseInlineGo_fuel _ (r.length + 1) r (by simp; omega) (by omega)]

theorem parseInlineAux_italic {cs inner r : List Char}
    (hc : matchCode cs = none) (hb : matchBold cs = none)
    (h : matchItalic cs = some (inner, r)) :
    parseInlineAux cs = ⟨String.mk inner, [Mark.em]⟩ :: parseInlineAux r := by
  obtain ⟨hcs, -⟩ := matchItalic_spec h
  subst hcs
  simp only [parseInlineAux, List.length_cons, parseInlineGo, hc, hb, h]
  rw [parseInlineGo_fuel _ (r.length + 1) r (by simp; omega) (by omega)]

theorem parseInlineAux_special {c : Char} {rest : List Char}
    (hc : matchCode (c :: rest) = none) (hb : matchBold (c :: rest) = none)
    (hi : matchItalic (c :: rest) = none) (hs : specialChar c = true) :
    parseInlineAux (c :: rest) = ⟨String.mk [c], []⟩ :: parseInlineAux rest := by
  simp only [parseInlineAux, List.length_cons, parseInlineGo, hc, hb, hi, hs, if_true]

theorem parseInlineAux_plain {c : Char} {rest : List Char}
    (hc : matchCode (c :: rest) = none) (hb : matchBold (c :: rest) = none)
    (hi : matchItalic (c :: rest) = none) (hs : specialChar c = false) :
    parseInlineAux (c :: rest) =
      ⟨String.mk ((c :: rest).takeWhile (fun x => !specialChar x)), []⟩ ::
        parseInlineAux ((c :: rest).dropWhile (fun x => !specialChar x)) := by
  simp only [parseInlineAux, List.length_cons, parseInlineGo, hc, hb, hi, hs,
    Bool.false_eq_true, if_false]
  have hdw : (c :: rest).dropWhile (fun x => !specialChar x) =
      rest.dropWhile (fun x => !specialChar x) := by
    rw [List.dropWhile_cons_of_pos]
    simp [hs]
  have hle : (rest.dropWhile (fun x => !specialChar x)).length ≤ rest.length :=
    (List.dropWhile_sublist _).length_le
  rw [hdw, parseInlineGo_fuel _ ((rest.dropWhile (fun x => !specialChar x)).length + 1) _
    (by omega) (by omega)]

/-! ## Fuel irrelevance and step equations for the block segmenter -/

theorem processGo_fuel :
    ∀ (f₁ : Nat) (f₂ : Nat) (lines : List (List Char)),
    lines.length < f₁ → lines.length < f₂ →
    processGo f₁ lines = processGo f₂ lines := by
  intro f₁
  induction f₁ with
  | zero => intro f₂ lines h1 _; omega
  | succ f ih =>
    intro f₂ lines h1 h2
    cases f₂ with
    | zero => omega
    | succ f₂ =>
      cases lines with
      | nil => rfl
      | cons line rest =>
        have hlen : rest.length + 1 < f + 1 := by simpa using h1
        have hlen2 : rest.length + 1 < f₂ + 1 := by simpa using h2
        simp only [processGo]
        split
        · exact ih f₂ rest (by omega) (by omega)
        · split
          · have hle : ((rest.dropWhile (fun l => !isFence l)).drop 1).length ≤ rest.length := by
              have h3 := (List.dropWhile_sublist (fun l => !isFence l) (l := rest)).length_le
              rw [List.length_drop]
              omega
            rw [ih f₂ _ (by omega) (by omega)]
          · split
            · rw [ih f₂ rest (by omega) (by omega)]
            · split
              · have hle : (rest.dropWhile isBulletLine).length ≤ rest.length :=
                  (List.dropWhile_sublist _).length_le
                rw [ih f₂ _ (by omega) (by omega)]
              · split
                · have hle : (rest.dropWhile isOrderedLine).length ≤ rest.length :=
                    (List.dropWhile_sublist _).length_le
                  rw [ih f₂ _ (by omega) (by omega)]
                · rw [ih f₂ rest (by omega) (by omega)]

theorem processLines_nil : processLines [] = [] := rfl

theorem processLines_blank {line : List Char} (rest : List (List Char))
    (h : (trimChars line).isEmpty = true) :
    processLines (line :: rest) = processLines rest := by
  simp only [processLines, List.length_cons, processGo, h, if_true]

theorem processLines_fence {line : List Char} (rest : List (List Char))
    (h0 : (trimChars line).isEmpty = false) (h1 : isFence line = true) :
    processLines (line :: rest) =
      Block.codeBlock
          (if ((trimChars line).drop 3).isEmpty then "plaintext"
           else String.mk ((trimChars line).drop 3))
          (String.mk (joinNl (rest.takeWhile (fun l => !isFence l)))) ::
        processLines ((rest.dropWhile (fun l => !isFence l)).drop 1) := by
  simp only [processLines, List.length_cons, processGo, h0, h1, Bool.false_eq_true,
    if_false, if_true]
  have hle : ((rest.dropWhile (fun l => !isFence l)).drop 1).length ≤ rest.length := by
    have h3 := (List.dropWhile_sublist (fun l => !isFence l) (l := rest)).length_le
    rw [List.length_drop]
    omega
  rw [processGo_fuel (rest.length + 1)
    (((rest.dropWhile (fun l => !isFence l)).drop 1).length + 1)
    ((rest.dropWhile (fun l => !isFence l)).drop 1) (by omega) (by omega)]

theorem processLines_heading {line : List Char} (rest : List (List Char))
    (h0 : (trimChars line).isEmpty = false) (h1 : isFence line = false)
    (h2 : isHeadingLine line = true) :
    processLines (line :: rest) =
      Block.heading 3 (String.mk (headingText line)) :: processLines rest := by
  simp only [processLines, List.length_cons, processGo, h0, h1, h2, Bool.false_eq_true,
    if_false, if_true]

theorem processLines_bullet {line : List Char} (rest : List (List Char))
    (h0 : (trimChars line).isEmpty = false) (h1 : isFence line = false)
    (h2 : isHeadingLine line = false) (h3 : isBulletLine line = true) :
    processLines (line :: rest) =
      Block.bulletList
          ((line :: rest.takeWhile isBulletLine).map
            (fun l => parseInlineFormatting (String.mk ((trimChars l).drop 2)))) ::
        processLines (rest.dropWhile isBulletLine) := by
  simp only [processLines, List.length_cons, processGo, h0, h1, h2, h3, Bool.false_eq_true,
    if_false, if_true]
  have hle : (rest.dropWhile isBulletLine).length ≤ rest.length :=
    (List.dropWhile_sublist _).length_le
  rw [processGo_fuel (rest.length + 1) ((rest.dropWhile isBulletLine).length + 1)
    (rest.dropWhile isBulletLine) (by omega) (by omega)]

theorem processLines_ordered {line : List Char} (rest : List (List Char))
    (h0 : (trimChars line).isEmpty = false) (h1 : isFence line = false)
    (h2 : isHeadingLine line = false) (h3 : isBulletLine line = false)
    (h4 : isOrderedLine line = true) :
    processLines (line :: rest) =
      Block.orderedList
          ((line :: rest.takeWhile isOrderedLine).map
            (fun l => parseInlineFormatting (String.mk (stripOrdered l)))) ::
        processLines (rest.dropWhile isOrderedLine) := by
  simp only [processLines, List.length_cons, processGo, h0, h1, h2, h3, h4,
    Bool.false_eq_true, if_false, if_true]
  have hle : (rest.dropWhile isOrderedLine).length ≤ rest.length :=
    (List.dropWhile_sublist _).length_le
  rw [processGo_fuel (rest.length + 1) ((rest.dropWhile isOrderedLine).length + 1)
    (rest.dropWhile isOrderedLine) (by omega) (by omega)]

theorem processLines_paragraph {line : List Char} (rest : List (List Char))
    (h0 : (trimChars line).isEmpty = false) (h1 : isFence line = false)
    (h2 : isHeadingLine line = false) (h3 : isBulletLine line = false)
    (h4 : isOrderedLine line = false) :
    processLines (line :: rest) =
      Block.paragraph (parseInlineFormatting (String.mk line)) :: processLines rest := by
  simp only [processLines, List.length_cons, processGo, h0, h1, h2, h3, h4,
    Bool.false_eq_true, if_false]

/-! ## Shape and disjointness lemmas for the line classifiers -/

theorem trimChars_cons₂ {a b : Char} {r : List Char}
    (ha : isWs a = false) (hb : isWs b = false) :
    ∃ t, trimChars (a :: b :: r) = a :: b :: t := by
  unfold trimChars
  rw [List.dropWhile_cons_of_neg (by simp [ha])]
  have hrev : (a :: b :: r).reverse = r.reverse ++ [b, a] := by simp
  rw [hrev, List.dropWhile_append]
  split
  · refine ⟨[], ?_⟩
    rw [List.dropWhile_cons_of_neg (by simp [hb])]
    simp
  · exact ⟨(r.reverse.dropWhile isWs).reverse, by simp⟩

theorem bullet_shapes {line : List Char} (h : isBulletLine line = true) :
    (∃ t, trimChars line = '*' :: ' ' :: t) ∨ (∃ t, trimChars line = '-' :: ' ' :: t) := by
  simp only [isBulletLine, Bool.or_eq_true, isPrefixOf_spec] at h
  simpa using h

theorem bullet_not_blank {line : List Char} (h : isBulletLine line = true) :
    (trimChars line).isEmpty = false := by
  rcases bullet_shapes h with ⟨t, ht⟩ | ⟨t, ht⟩ <;> simp [ht]

theorem bullet_not_fence {line : List Char} (h : isBulletLine line = true) :
    isFence line = false := by
  cases hf : isFence line with
  | false => rfl
  | true =>
    exfalso
    rw [isFence, isPrefixOf_spec] at hf
    obtain ⟨u, hu⟩ := hf
    rcases bullet_shapes h with ⟨t, ht⟩ | ⟨t, ht⟩ <;> rw [ht] at hu <;> simp at hu

theorem heading_trim_shape {line : List Char} (h : isHeadingLine line = true) :
    ∃ t, trimChars line = '*' :: '*' :: t := by
  have hpre : ['*', '*'].isPrefixOf line = true := by
    simp only [isHeadingLine, Bool.and_eq_true] at h
    exact h.1.1
  rw [isPrefixOf_spec] at hpre
  obtain ⟨r, hr⟩ := hpre
  rw [hr]
  exact trimChars_cons₂ (by decide) (by decide)

theorem heading_not_bullet {line : List Char} (h : isHeadingLine line = true) :
    isBulletLine line = false := by
  obtain ⟨t, ht⟩ := heading_trim_shape h
  cases hb : isBulletLine line with
  | false => rfl
  | true =>
    exfalso
    rcases bullet_shapes hb with ⟨u, hu⟩ | ⟨u, hu⟩ <;> rw [ht] at hu <;> simp at hu

theorem bullet_not_heading {line : List Char} (h : isBulletLine line = true) :
    isHeadingLine line = false := by
  cases hh : isHeadingLine line with
  | false => rfl
  | true => rw [heading_not_bullet hh] at h; exact absurd h (by simp)

theorem fence_shape {line : List Char} (h : isFence line = true) :
    ∃ t, trimChars line = '`' :: '`' :: '`' :: t := by
  rw [isFence, isPrefixOf_spec] at h
  simpa using h

theorem fence_not_blank {line : List Char} (h : isFence line = true) :
    (trimChars line).isEmpty = false := by
  obtain ⟨t, ht⟩ := fence_shape h
  simp [ht]

/-! ## Reassembling a line from its spans -/

/-- Restore the formatting delimiters the scanner consumed for a span:
backticks around `code`, double asterisks around `strong`, single
asterisks around `em`, nothing for an unmarked span. -/
def wrapSpan (sp : TextSpan) : String :=
  match sp.marks with
  | [Mark.code] => "`" ++ sp.text ++ "`"
  | [Mark.strong] => "**" ++ sp.text ++ "**"
  | [Mark.em] => "*" ++ sp.text ++ "*"
  | _ => sp.text

/-- Concatenation of a list of strings. -/
def concatStrs (l : List String) : String := l.foldr (fun a b => a ++ b) ""

/-- A span never carries more than one mark. -/
def spanMarksOk (sp : TextSpan) : Bool := decide (sp.marks.length ≤ 1)

theorem concatStrs_cons (a : String) (l : List String) :
    concatStrs (a :: l) = a ++ concatStrs l := rfl

theorem parseInlineGo_reconstruct :
    ∀ (n : Nat) (cs : List Char), cs.length ≤ n →
    concatStrs ((parseInlineAux cs).map wrapSpan) = String.mk cs ∧
      (parseInlineAux cs).all spanMarksOk = true := by
  intro n
  induction n with
  | zero =>
    intro cs h
    have hnil : cs = [] := by
      cases cs with
      | nil => rfl
      | cons c r => simp at h
    subst hnil
    exact ⟨rfl, rfl⟩
  | succ n ih =>
    intro cs hlen
    cases cs with
    | nil => exact ⟨rfl, rfl⟩
    | cons c rest =>
      have hlen' : rest.length + 1 ≤ n + 1 := by simpa using hlen
      cases hm : matchCode (c :: rest) with
      | some p =>
        obtain ⟨inner, r⟩ := p
        obtain ⟨hshape, -⟩ := matchCode_spec hm
        have hrlen : r.length ≤ n := by
          have hl := matchCode_length hm
          simp only [List.length_cons] at hl
          omega
        obtain ⟨ihc, ihm⟩ := ih r hrlen
        rw [parseInlineAux_code hm]
        constructor
        · rw [List.map_cons, concatStrs_cons, ihc, hshape]
          show String.mk ['`'] ++ String.mk inner ++ String.mk ['`'] ++ String.mk r = _
          rw [mk_append, mk_append, mk_append]
          exact congrArg String.mk (by simp)
        · simp [List.all_cons, ihm, spanMarksOk]
      | none =>
      cases hb : matchBold (c :: rest) with
      | some p =>
        obtain ⟨inner, r⟩ := p
        obtain ⟨hshape, -⟩ := matchBold_spec hb
        have hrlen : r.length ≤ n := by
          have hl := matchBold_length hb
          simp only [List.length_cons] at hl
          omega
        obtain ⟨ihc, ihm⟩ := ih r hrlen
        rw [parseInlineAux_bold hm hb]
        constructor
        · rw [List.map_cons, concatStrs_cons, ihc, hshape]
          show String.mk ['*', '*'] ++ String.mk inner ++ String.mk ['*', '*'] ++
              String.mk r = _
          rw [mk_append, mk_append, mk_append]
          exact congrArg String.mk (by simp)
        · simp [List.all_cons, ihm, spanMarksOk]
      | none =>
      cases hi : matchItalic (c :: rest) with
      | some p =>
        obtain ⟨inner, r⟩ := p
        obtain ⟨hshape, -⟩ := matchItalic_spec hi
        have hrlen : r.length ≤ n := by
          have hl := matchItalic_length hi
          simp only [List.length_cons] at hl
          omega
        obtain ⟨ihc, ihm⟩ := ih r hrlen
        rw [parseInlineAux_italic hm hb hi]
        constructor
        · rw [List.map_cons, concatStrs_cons, ihc, hshape]
          show String.mk ['*'] ++ String.mk inner ++ String.mk ['*'] ++ String.mk r = _
          rw [mk_append, mk_append, mk_append]
          exact congrArg String.mk (by simp)
        · simp [List.all_cons, ihm, spanMarksOk]
      | none =>
      by_cases hs : specialChar c = true
      · obtain ⟨ihc, ihm⟩ := ih rest (by omega)
        rw [parseInlineAux_special hm hb hi hs]
        constructor
        · rw [List.map_cons, concatStrs_cons, ihc]
          show String.mk [c] ++ String.mk rest = _
          rw [mk_append]
          exact congrArg String.mk (by simp)
        · simp [List.all_cons, ihm, spanMarksOk]
      · have hs' : specialChar c = false := by
          cases h : specialChar c with
          | false => rfl
          | true => exact absurd h hs
        have hdw : (c :: rest).dropWhile (fun x => !specialChar x) =
            rest.dropWhile (fun x => !specialChar x) := by
          rw [List.dropWhile_cons_of_pos]
          simp [hs']
        have hrlen : ((c :: rest).dropWhile (fun x => !specialChar x)).length ≤ n := by
          rw [hdw]
          have hle := (List.dropWhile_sublist (fun x => !specialChar x) (l := rest)).length_le
          omega
        obtain ⟨ihc, ihm⟩ := ih _ hrlen
        rw [parseInlineAux_plain hm hb hi hs']
        constructor
        · rw [List.map_cons, concatStrs_cons, ihc]
          show String.mk ((c :: rest).takeWhile (fun x => !specialChar x)) ++
              String.mk ((c :: rest).dropWhile (fun x => !specialChar x)) = _
          rw [mk_append]
          exact congrArg String.mk (List.takeWhile_append_dropWhile _ _)
        · simp [List.all_cons, ihm, spanMarksOk]

/-! ## Non-emptiness of formatter output -/

theorem parseInlineFormatting_ne_nil (s : String) : parseInlineFormatting s ≠ [] := by
  unfold parseInlineFormatting
  cases h : parseInlineAux s.toList with
  | nil => simp [h]
  | cons a t => simp [h]

/-- `true` when every paragraph run and every list item of a block is a
non-empty span sequence (headings and code blocks hold a single fixed text
node, so they pass vacuously). -/
def blockRunsNonempty : Block → Bool
  | Block.paragraph c => !c.isEmpty
  | Block.bulletList items => items.all (fun i => !i.isEmpty)
  | Block.orderedList items => items.all (fun i => !i.isEmpty)
  | _ => true

theorem processGo_runs (fuel : Nat) :
    ∀ lines, ((processGo fuel lines).all blockRunsNonempty) = true := by
  induction fuel with
  | zero => intro lines; rfl
  | succ f ih =>
    intro lines
    cases lines with
    | nil => rfl
    | cons line rest =>
      simp only [processGo]
      split
      · exact ih rest
      · split
        · simp only [List.all_cons, Bool.and_eq_true]
          exact ⟨rfl, ih _⟩
        · split
          · simp only [List.all_cons, Bool.and_eq_true]
            exact ⟨rfl, ih _⟩
          · split
            · simp only [List.all_cons, Bool.and_eq_true]
              refine ⟨?_, ih _⟩
              simp only [blockRunsNonempty, List.all_map]
              refine List.all_eq_true.mpr ?_
              intro l hl
              simp only [List.mem_map] at hl
              obtain ⟨x, -, rfl⟩ := hl
              simp [parseInlineFormatting_ne_nil]
            · split
              · simp only [List.all_cons, Bool.and_eq_true]
                refine ⟨?_, ih _⟩
                simp only [blockRunsNonempty, List.all_map]
                refine List.all_eq_true.mpr ?_
                intro l hl
                simp only [List.mem_map] at hl
                obtain ⟨x, -, rfl⟩ := hl
                simp [parseInlineFormatting_ne_nil]
              · simp only [List.all_cons, Bool.and_eq_true]
                refine ⟨?_, ih _⟩
                simp [blockRunsNonempty, parseInlineFormatting_ne_nil]

theorem takeWhile_eq_self_of_all {α : Type} {p : α → Bool} :
    ∀ {l : List α}, l.all p = true → l.takeWhile p = l := by
  intro l
  induction l with
  | nil => intro _; rfl
  | cons a t ih =>
    intro h
    simp only [List.all_cons, Bool.and_eq_true] at h
    simp [List.takeWhile_cons, h.1, ih h.2]

theorem dropWhile_eq_nil_of_all {α : Type} {p : α → Bool} :
    ∀ {l : List α}, l.all p = true → l.dropWhile p = [] := by
  intro l
  induction l with
  | nil => intro _; rfl
  | cons a t ih =>
    intro h
    simp only [List.all_cons, Bool.and_eq_true] at h
    simp [List.dropWhile_cons, h.1, ih h.2]

/-- Discriminates heading blocks. -/
def blockIsHeading : Block → Bool
  | Block.heading _ _ => true
  | _ => false

theorem mk_toList (s : String) : String.mk s.toList = s := rfl

/-! ## The claims -/

/-- C1: for every input string — including the empty string, whitespace-only
strings, strings with unterminated code fences, and strings containing lone
`*` or backtick characters — `markdownToADF` is a total function (the
definition above is structurally recursive, so it terminates and raises
nothing) and returns a document whose content array contains at least one
block node. -/
theorem markdownToADF_content_ne_nil (s : String) : (markdownToADF s).content ≠ [] := by
  simp only [markdownToADF]
  cases h : processLines (splitLines s.toList) with
  | nil => simp
  | cons b bs => simp [h]

/-- C2: converting the empty string or the whitespace-only string
`"   \n\n"` yields a document whose content is exactly one paragraph block
containing exactly one text span with empty text and no mark. -/
theorem markdownToADF_empty_input :
    (markdownToADF "").content = [Block.paragraph [⟨"", []⟩]] ∧
    (markdownToADF "   \n\n").content = [Block.paragraph [⟨"", []⟩]] := by
  decide

/-- C3: the inline formatter sends
``"`code` and **bold** and *italic*"`` to exactly five spans in order —
Code("code"), plain(" and "), Bold("bold"), plain(" and "),
Italic("italic") — reflecting the fixed per-position precedence
code > bold > italic > plain of the scan loop. -/
theorem parseInlineFormatting_precedence_example :
    parseInlineFormatting "`code` and **bold** and *italic*" =
      [⟨"code", [Mark.code]⟩, ⟨" and ", []⟩, ⟨"bold", [Mark.strong]⟩,
       ⟨" and ", []⟩, ⟨"italic", [Mark.em]⟩] := by
  decide

/-- C4: the line `"**Goal:**"` does not produce a heading block (it
contains the substring `":**"`), while `"**Overview**"` produces exactly
one level-3 heading with text `"Overview"`. -/
theorem heading_boundary_example :
    ((markdownToADF "**Goal:**").content.all (fun b => !blockIsHeading b)) = true ∧
    (markdownToADF "**Overview**").content = [Block.heading 3 "Overview"] := by
  decide

/-- C5, counterexample: the line consisting of the two characters `**`
alone IS emitted as a heading (with empty text) by the converter — the
source checks only `startsWith('**')`, `endsWith('**')` and the absence of
`":**"`, and `"**"` passes all three — refuting the claim that a line whose
markers do not delimit a valid bold span is never emitted as a heading. -/
theorem heading_double_star_counterexample :
    (markdownToADF "**").content = [Block.heading 3 ""] := by
  decide

/-- C5, amended: a non-blank, non-fence line is classified as a heading iff
the raw line starts with `**`, ends with `**`, and does not contain the
substring `":**"` (`isHeadingLine`); whether the markers delimit a valid
bold span is not checked, so `"**"` alone or a line with extra marks
between the outer markers is still emitted as a heading. -/
theorem heading_classification_iff (line : List Char) (rest : List (List Char))
    (h0 : (trimChars line).isEmpty = false) (h1 : isFence line = false) :
    (∃ t tl, processLines (line :: rest) = Block.heading 3 t :: tl) ↔
      isHeadingLine line = true := by
  constructor
  · rintro ⟨t, tl, heq⟩
    cases hh : isHeadingLine line with
    | true => rfl
    | false =>
      exfalso
      by_cases hb : isBulletLine line = true
      · rw [processLines_bullet rest h0 h1 hh hb] at heq
        simp at heq
      · have hb' : isBulletLine line = false := by
          cases hx : isBulletLine line
          · rfl
          · exact absurd hx hb
        by_cases ho : isOrderedLine line = true
        · rw [processLines_ordered rest h0 h1 hh hb' ho] at heq
          simp at heq
        · have ho' : isOrderedLine line = false := by
            cases hx : isOrderedLine line
            · rfl
            · exact absurd hx ho
          rw [processLines_paragraph rest h0 h1 hh hb' ho'] at heq
          simp at heq
  · intro hh
    exact ⟨String.mk (headingText line), processLines rest,
      processLines_heading rest h0 h1 hh⟩

/-- Witness for the amended C5 at the concrete line `"**Overview**"`. -/
theorem heading_classification_iff_witness :
    (∃ t tl, processLines ["**Overview**".toList] = Block.heading 3 t :: tl) ↔
      isHeadingLine "**Overview**".toList = true :=
  heading_classification_iff "**Overview**".toList [] (by decide) (by decide)

/-- C6, counterexample: concatenating the `text` fields of the spans does
NOT reproduce the input line — for `"**bold**"` the formatter returns the
single span Bold("bold"), whose text concatenation is `"bold"`. -/
theorem span_concat_counterexample :
    concatStrs ((parseInlineFormatting "**bold**").map TextSpan.text) ≠ "**bold**" := by
  decide

/-- C6, amended: the spans cover the line with no gaps or overlaps in the
sense that concatenating each span's text with its consumed formatting
delimiters restored (`wrapSpan`) reproduces the input line exactly, and
every span carries at most one mark out of strong, em, code (an unmarked
span has none). -/
theorem parseInlineFormatting_reassembly (s : String) :
    concatStrs ((parseInlineFormatting s).map wrapSpan) = s ∧
      (parseInlineFormatting s).all spanMarksOk = true := by
  obtain ⟨h1, h2⟩ := parseInlineGo_reconstruct s.toList.length s.toList le_rfl
  rw [mk_toList] at h1
  unfold parseInlineFormatting
  cases hr : parseInlineAux s.toList with
  | nil =>
    rw [hr] at h1
    have hs : s = "" := h1.symm
    subst hs
    exact ⟨by decide, by decide⟩
  | cons a t =>
    rw [hr] at h1 h2
    simp only [hr, List.isEmpty_cons, Bool.false_eq_true, if_false]
    exact ⟨h1, h2⟩

/-- C7: converting ```` "```js\nconst x=1;\n```" ```` yields exactly one
code block with language `"js"` and raw text `"const x=1;"`; and whenever
the text after the opening fence marker is empty, the emitted code block's
language defaults to `"plaintext"`. -/
theorem codeBlock_capture :
    (markdownToADF "```js\nconst x=1;\n```").content =
      [Block.codeBlock "js" "const x=1;"] ∧
    ∀ (line : List Char) (rest : List (List Char)), isFence line = true →
      ((trimChars line).drop 3).isEmpty = true →
      processLines (line :: rest) =
        Block.codeBlock "plaintext"
            (String.mk (joinNl (rest.takeWhile (fun l => !isFence l)))) ::
          processLines ((rest.dropWhile (fun l => !isFence l)).drop 1) := by
  constructor
  · decide
  · intro line rest h1 h2
    rw [processLines_fence rest (fence_not_blank h1) h1]
    simp [h2]

/-- Witness for C7's general conjunct at the fence line ```` "```" ````
followed by one line `"x"`. -/
theorem codeBlock_capture_witness :
    processLines ["```".toList, "x".toList] =
      Block.codeBlock "plaintext"
          (String.mk (joinNl (["x".toList].takeWhile (fun l => !isFence l)))) ::
        processLines ((["x".toList].dropWhile (fun l => !isFence l)).drop 1) :=
  codeBlock_capture.2 "```".toList ["x".toList] (by decide) (by decide)

/-- C8: an unterminated fence raises nothing and consumes every remaining
line verbatim as code content: if the first line opens a fence and no later
line closes one, the whole remainder becomes the code block's text; in
particular ```` "```\nline1\nline2" ```` yields one code block with raw
text `"line1\nline2"`. -/
theorem unterminated_fence :
    (markdownToADF "```\nline1\nline2").content =
      [Block.codeBlock "plaintext" "line1\nline2"] ∧
    ∀ (line : List Char) (rest : List (List Char)), isFence line = true →
      rest.all (fun l => !isFence l) = true →
      processLines (line :: rest) =
        [Block.codeBlock
          (if ((trimChars line).drop 3).isEmpty then "plaintext"
           else String.mk ((trimChars line).drop 3))
          (String.mk (joinNl rest))] := by
  constructor
  · decide
  · intro line rest h1 h2
    rw [processLines_fence rest (fence_not_blank h1) h1,
      takeWhile_eq_self_of_all h2, dropWhile_eq_nil_of_all h2]
    rfl

/-- Witness for C8's general conjunct at ```` "```" ```` followed by one
non-fence line `"a"`. -/
theorem unterminated_fence_witness :
    processLines ["```".toList, "a".toList] =
      [Block.codeBlock
        (if ((trimChars "```".toList).drop 3).isEmpty then "plaintext"
         else String.mk ((trimChars "```".toList).drop 3))
        (String.mk (joinNl ["a".toList]))] :=
  unterminated_fence.2 "```".toList ["a".toList] (by decide) (by decide)

/-- C9: a bullet list block consists exactly of the maximal run of
immediately consecutive lines whose trimmed text starts with `"* "` or
`"- "` (the `takeWhile isBulletLine` run), and a blank line or any other
line shape ends the list; converting `"- a\n- b\n\nnot a list"` yields
exactly one bullet list with two items followed by exactly one paragraph. -/
theorem bulletList_grouping :
    (markdownToADF "- a\n- b\n\nnot a list").content =
      [Block.bulletList [[⟨"a", []⟩], [⟨"b", []⟩]],
       Block.paragraph [⟨"not a list", []⟩]] ∧
    ∀ (line : List Char) (rest : List (List Char)), isBulletLine line = true →
      processLines (line :: rest) =
        Block.bulletList
            ((line :: rest.takeWhile isBulletLine).map
              (fun l => parseInlineFormatting (String.mk ((trimChars l).drop 2)))) ::
          processLines (rest.dropWhile isBulletLine) := by
  constructor
  · decide
  · intro line rest h
    exact processLines_bullet rest (bullet_not_blank h) (bullet_not_fence h)
      (bullet_not_heading h) h

/-- Witness for C9's general conjunct at the single bullet line `"- a"`. -/
theorem bulletList_grouping_witness :
    processLines ["- a".toList] =
      Block.bulletList
          (("- a".toList :: List.takeWhile isBulletLine []).map
            (fun l => parseInlineFormatting (String.mk ((trimChars l).drop 2)))) ::
        processLines (List.dropWhile isBulletLine []) :=
  bulletList_grouping.2 "- a".toList [] (by decide)

/-- C10: the inline formatter returns a non-empty span sequence for every
input (on the empty string: one unmarked empty span), and consequently
every paragraph and every list item of any output document carries at
least one text node. -/
theorem formatter_nonempty_invariant :
    (∀ s : String, parseInlineFormatting s ≠ []) ∧
    parseInlineFormatting "" = [⟨"", []⟩] ∧
    ∀ s : String, ((markdownToADF s).content.all blockRunsNonempty) = true := by
  refine ⟨parseInlineFormatting_ne_nil, by decide, ?_⟩
  intro s
  simp only [markdownToADF]
  split
  · decide
  · exact processGo_runs _ _

end BoardHelper
